import Mathlib

/-!
# Verification of the site2skill locale-resolution and robots-gate subsystem

Shallow embedding of the Go sources:
* `RobotsManager` (`NewRobotsManager`, `FetchRobotsTxt`, `IsAllowed`)
* `internal/fetcher/locale.go` (`ExtractLocale`, `BuildLocaleURL`,
  `ExtractHreflang`, `SelectPreferredLocaleURL`, `NormalizeLocale`)

Go strings are modelled as `List Char` (`Str`).  External collaborators
(the `net/url` parser, the `net/http` transport, the `robotstxt` library
and the HTML parser) are modelled at their interfaces: a parsed URL is a
record of path and raw query, the network round-trip is an explicit
outcome value, the robots ruleset is an object exposing `findGroup` and
`test`, and a parsed HTML document is a tree of nodes.
-/

namespace Site2skill

/-- Go strings, modelled as lists of characters. -/
abbrev Str := List Char

/-- Turn a Lean string literal into the `Str` model. -/
def str (s : String) : Str := s.data

/-- Model of Go `strings.HasPrefix`. -/
def hasPre (s pre : Str) : Bool := pre.isPrefixOf s

/-- Model of Go `strings.HasSuffix`. -/
def hasSuf (s suf : Str) : Bool := suf.isSuffixOf s

/-- Model of Go `strings.TrimPrefix`. -/
def trimPre (s pre : Str) : Str := if hasPre s pre then s.drop pre.length else s

/-- ASCII lowercasing of one character; agrees with Go `strings.ToLower`
on the ASCII inputs that occur in this code base. -/
def asciiLower (c : Char) : Char :=
  if 'A' ≤ c ∧ c ≤ 'Z' then Char.ofNat (c.toNat + 32) else c

/-- Model of Go `strings.ToLower` (ASCII fragment). -/
def lowerStr (s : Str) : Str := s.map asciiLower

section Robots

/-- A rule group of the `robotstxt` collaborator library: it can test a
path against its Allow/Disallow rules. -/
structure Group where
  test : Str → Bool

/-- A parsed robots.txt ruleset from the `robotstxt` collaborator
library; `findGroup` selects the group for a user agent (with the
library-internal wildcard fallback). -/
structure RobotsData where
  findGroup : Str → Group

/-- The mutable state of a `RobotsManager` (the mutex is omitted: every
operation runs under it, so the embedding is the sequential semantics).
The `http.Client` field is replaced by the explicit fetch outcome fed to
`FetchRobotsTxt`. -/
structure RobotsManager where
  robotsData : Option RobotsData
  userAgent : Str
  fetched : Bool
  basePath : Str

/-- Embedding of `NewRobotsManager` (the client argument is dropped;
the transport is modelled as the outcome argument of `FetchRobotsTxt`). -/
def NewRobotsManager (userAgent basePath : Str) : RobotsManager :=
  let basePath :=
    if basePath ≠ [] ∧ basePath ≠ ['/'] ∧ hasSuf basePath ['/'] = false then
      basePath ++ ['/']
    else basePath
  let basePath := if basePath = ['/'] then [] else basePath
  { robotsData := none, userAgent := userAgent, fetched := false, basePath := basePath }

/-- The errors `FetchRobotsTxt` can return to its caller. -/
inductive FetchError where
  /-- `url.Parse(rootURL)` failed. -/
  | urlParseError
  /-- `http.NewRequest` failed. -/
  | requestBuildError
deriving DecidableEq

/-- The environment of one `FetchRobotsTxt` call: what the `net/url`
parser, the request builder, the transport and the `robotstxt` parser
did on this call. -/
inductive FetchOutcome where
  /-- `url.Parse(rootURL)` returned an error. -/
  | rootParseFailure
  /-- `http.NewRequest` returned an error. -/
  | requestBuildFailure
  /-- `r.client.Do(req)` returned an error. -/
  | transportFailure
  /-- A response arrived with this status code; for status 200 the body
  is the result of `robotstxt.FromResponse` (`none` = grammar error). -/
  | httpResponse (status : Nat) (body : Option RobotsData)

/-- Embedding of `FetchRobotsTxt`: the state transition and the returned
error for one call under the given environment outcome. -/
def FetchRobotsTxt (outcome : FetchOutcome) (r : RobotsManager) :
    RobotsManager × Option FetchError :=
  if r.fetched then (r, none)
  else
    match outcome with
    | .rootParseFailure => (r, some .urlParseError)
    | .requestBuildFailure => (r, some .requestBuildError)
    | .transportFailure => ({ r with fetched := true }, none)
    | .httpResponse status body =>
      if status ≠ 200 then ({ r with fetched := true }, none)
      else
        match body with
        | none => ({ r with fetched := true }, none)
        | some robotsData => ({ r with robotsData := some robotsData, fetched := true }, none)

/-- A parsed URL as returned by Go `url.Parse`: the fields this code
reads. -/
structure GoURL where
  path : Str
  rawQuery : Str
deriving DecidableEq

/-- Embedding of `IsAllowed`; the `target` argument is the result of
`url.Parse(targetURL)` (`none` = parse error). -/
def IsAllowed (r : RobotsManager) (target : Option GoURL) : Bool :=
  if r.fetched = false ∨ r.robotsData.isNone then true
  else
    match target with
    | none => true
    | some u =>
      let path := if u.rawQuery ≠ [] then u.path ++ '?' :: u.rawQuery else u.path
      let path :=
        if r.basePath ≠ [] ∧ hasPre path r.basePath = true then
          '/' :: trimPre path r.basePath
        else path
      match r.robotsData with
      | none => true
      | some d => (d.findGroup r.userAgent).test path

/-- The failure conditions of the robots.txt fetch that the spec calls
"network/transport error, non-success HTTP status, or unparseable
body". -/
def FailureOutcome : FetchOutcome → Prop
  | .transportFailure => True
  | .httpResponse status body => status ≠ 200 ∨ body = none
  | _ => False

/-- Modelled from the spec: the tested path of claim C4, "the URL path,
appended with `?` plus the raw query exactly when a query string is
present". -/
def specTestedPath (u : GoURL) : Str :=
  if u.rawQuery ≠ [] then u.path ++ '?' :: u.rawQuery else u.path

/-- Modelled from the spec: the rewritten path of claim C4, "if a
non-empty basePath is configured and the path starts with it, the path
is rewritten to `/` plus the path with the basePath prefix stripped". -/
def specRewrittenPath (basePath : Str) (u : GoURL) : Str :=
  let p := specTestedPath u
  if basePath ≠ [] ∧ hasPre p basePath = true then '/' :: p.drop basePath.length else p

end Robots

section Locale

/-- `[a-z]`. -/
def lowerAlpha (c : Char) : Bool := 'a' ≤ c && c ≤ 'z'

/-- `[a-zA-Z]`. -/
def alphaChar (c : Char) : Bool := lowerAlpha c || ('A' ≤ c && c ≤ 'Z')

/-- Does `[a-zA-Z]{k}` followed by `/` match at the head of `l`?  Used
for the region part of the locale pattern. -/
def regionFits (l : List Char) (k : Nat) : Bool :=
  ((l.take k).length == k) && (l.take k).all alphaChar &&
    (match l.drop k with
     | '/' :: _ => true
     | _ => false)

/-- One attempt of the regex `/([a-z]{2}(?:-[a-zA-Z]{2,4})?)/`
(`localePathPattern`) anchored at the head of the list, with the
leftmost-first greedy semantics of the Go regexp engine: the optional
region group is preferred, and inside it the longest repetition count.
Returns `(whole match length, capture length)` on success. -/
def matchSeg : List Char → Option (Nat × Nat)
  | '/' :: c1 :: c2 :: rest =>
    if lowerAlpha c1 && lowerAlpha c2 then
      match rest with
      | '-' :: r =>
        if regionFits r 4 then some (9, 7)
        else if regionFits r 3 then some (8, 6)
        else if regionFits r 2 then some (7, 5)
        else none
      | '/' :: _ => some (4, 2)
      | _ => none
    else none
  | _ => none

/-- One regex match as reported by `FindAllStringSubmatchIndex`:
`[match[0], match[1], match[2], match[3]]` = whole-match start/end and
capture-group-1 start/end. -/
structure RegexMatch where
  mStart : Nat
  mEnd : Nat
  cStart : Nat
  cEnd : Nat

/-- Scanning loop of `FindAllStringSubmatchIndex`: the fuel argument
(one unit per scan position, at least the list length) makes the
recursion structural; every match consumes at least one character, so
the fuel is never exhausted when it starts at the list length. -/
def findAllFuel : Nat → List Char → Nat → List RegexMatch
  | _, [], _ => []
  | 0, _ :: _, _ => []
  | fuel + 1, c :: rest, pos =>
    match matchSeg (c :: rest) with
    | some (mlen, clen) =>
      ⟨pos, pos + mlen, pos + 1, pos + 1 + clen⟩ ::
        findAllFuel fuel (rest.drop (mlen - 1)) (pos + mlen)
    | none => findAllFuel fuel rest (pos + 1)

/-- Model of `localePathPattern.FindAllStringSubmatchIndex(path, -1)`:
all successive non-overlapping leftmost matches, scanning from
position `pos`. -/
def findAllAux (cs : List Char) (pos : Nat) : List RegexMatch :=
  findAllFuel cs.length cs pos

/-- The `KnownLocales` registry from the source, as a list of keys. -/
def KnownLocales : List Str :=
  [str "en", str "en-us", str "en-gb",
   str "ja", str "ja-jp",
   str "zh", str "zh-cn", str "zh-tw", str "zh-hk",
   str "ko", str "ko-kr",
   str "de", str "de-de",
   str "fr", str "fr-fr",
   str "es", str "es-es",
   str "it", str "it-it",
   str "pt", str "pt-br",
   str "ru", str "ru-ru",
   str "ar", str "nl", str "pl", str "tr",
   str "vi", str "th", str "id", str "ms"]

/-- Go `KnownLocales[s]` map lookup (false when absent). -/
def knownLocale (s : Str) : Bool := KnownLocales.contains s

/-- Model of `strings.ReplaceAll(s, "//", "/")`: one left-to-right pass
replacing non-overlapping occurrences. -/
def collapse2Slash : List Char → List Char
  | [] => []
  | [c] => [c]
  | c :: d :: rest =>
    if c = '/' ∧ d = '/' then '/' :: collapse2Slash rest
    else c :: collapse2Slash (d :: rest)

/-- The loop body of path-mode `ExtractLocale`: walk the regex matches,
accept the first whose lowercased capture is a registry member, and
rebuild the canonical path from it. -/
def extractLoop (path : Str) : List RegexMatch → Option (Str × Str)
  | [] => none
  | m :: ms =>
    let localePart := (path.drop m.cStart).take (m.cEnd - m.cStart)
    let potentialLocale := lowerStr localePart
    if knownLocale potentialLocale then
      let canonical := path.take m.mStart ++ '/' :: path.drop m.mEnd
      let canonical := collapse2Slash canonical
      let canonical := if canonical = [] then str "/" else canonical
      some (potentialLocale, canonical)
    else extractLoop path ms

/-- Path-segment mode of `ExtractLocale` on a URL path. -/
def extractPathMode (path : Str) : Str × Str :=
  match extractLoop path (findAllAux path 0) with
  | some r => r
  | none => ([], path)

/-- `LocaleConfig` from the source (`Priority`, `ParamName`). -/
structure LocaleConfig where
  priority : List Str
  paramName : Str

/-- The `DefaultLocalePriority` variable from the source. -/
def DefaultLocalePriority : List Str := [str "en", str "ja"]

/-- The effective parameter name of the Go condition
`cfg != nil && cfg.ParamName != ""`. -/
def cfgParam : Option LocaleConfig → Str
  | some cfg => cfg.paramName
  | none => []

/-- Model of `strings.Cut(s, "=")` keeping both pieces (`s` itself with
empty value when no `=` occurs), as used by query parsing. -/
def cutEq : Str → Str × Str
  | [] => ([], [])
  | c :: rest =>
    if c = '=' then ([], rest)
    else
      let r := cutEq rest
      (c :: r.1, r.2)

/-- Split on `&`, accumulator-style. -/
def splitAmpAux (cur : List Char) : List Char → List (List Char)
  | [] => [cur.reverse]
  | c :: rest =>
    if c = '&' then cur.reverse :: splitAmpAux [] rest
    else splitAmpAux (c :: cur) rest

/-- Model of Go `url.ParseQuery` for percent-escape-free queries: split
on `&`, skip empty segments, cut each on the first `=`. -/
def queryPairs (raw : Str) : List (Str × Str) :=
  ((splitAmpAux [] raw).filter (· ≠ [])).map cutEq

/-- Model of `u.Query().Get(name)`: first value of the key, `""` when
absent. -/
def queryGet (raw name : Str) : Str :=
  match (queryPairs raw).find? (fun p => p.1 == name) with
  | some p => p.2
  | none => []

/-- Embedding of `ExtractLocale`; the `u` argument is the caller's
parsed URL (`nil` modelled as `none`). -/
def ExtractLocale (u : Option GoURL) (cfg : Option LocaleConfig) : Str × Str :=
  match u with
  | none => ([], [])
  | some u =>
    if cfgParam cfg ≠ [] then (queryGet u.rawQuery (cfgParam cfg), u.path)
    else extractPathMode u.path

/-- Key order used by `url.Values.Encode` (it sorts keys). -/
def keyLE (a b : Str × Str) : Bool := decide (a.1.asString ≤ b.1.asString)

/-- Insertion step of the key sort. -/
def insertPair (p : Str × Str) : List (Str × Str) → List (Str × Str)
  | [] => [p]
  | q :: rest => if keyLE p q then p :: q :: rest else q :: insertPair p rest

/-- Sort query pairs by key (model of the sorted iteration of
`url.Values.Encode`). -/
def sortPairs : List (Str × Str) → List (Str × Str)
  | [] => []
  | p :: rest => insertPair p (sortPairs rest)

/-- Join with `&`. -/
def joinAmp : List Str → Str
  | [] => []
  | [s] => s
  | s :: rest => s ++ '&' :: joinAmp rest

/-- Model of `url.Values.Encode` for percent-escape-free pairs: keys
sorted, each emitted as `key=value`, joined with `&`. -/
def encodeQuery (m : List (Str × Str)) : Str :=
  joinAmp ((sortPairs m).map fun p => p.1 ++ '=' :: p.2)

/-- Model of `url.Values.Set`: replace every value of the key with the
single new one. -/
def querySet (m : List (Str × Str)) (key val : Str) : List (Str × Str) :=
  (m.filter fun p => p.1 ≠ key) ++ [(key, val)]

/-- The query-parameter branch of `BuildLocaleURL` after a successful
`url.Parse(baseURL + canonical)`: set the configured parameter to the
locale and re-encode the query (the final `u.String()` serialization of
the collaborator is not modelled; the result is the URL record). -/
def buildLocaleQueryURL (u : GoURL) (param locale : Str) : GoURL :=
  { u with rawQuery := encodeQuery (querySet (queryPairs u.rawQuery) param locale) }

/-- Embedding of `BuildLocaleURL`.  `parsed` is the `url.Parse` result
of `baseURL ++ canonical` consulted by the query branch; the string
branches are returned as `.inl`, the query branch as the built URL
record (`.inr`). -/
def BuildLocaleURL (baseURL locale canonical : Str) (cfg : Option LocaleConfig)
    (parsed : Option GoURL) : Str ⊕ GoURL :=
  if locale = [] then .inl (baseURL ++ canonical)
  else if cfgParam cfg ≠ [] then
    match parsed with
    | none => .inl (baseURL ++ canonical)
    | some u => .inr (buildLocaleQueryURL u (cfgParam cfg) locale)
  else .inl (baseURL ++ '/' :: locale ++ canonical)

/-- Go map read `m[k]` with presence flag, on the association-list model
of a string map. -/
def mapGet (m : List (Str × Str)) (k : Str) : Option Str :=
  (m.find? fun p => p.1 == k).map (·.2)

/-- The priority loop of `SelectPreferredLocaleURL`. -/
def selectLoop (m : List (Str × Str)) : List Str → Option (Str × Str)
  | [] => none
  | loc :: rest =>
    match mapGet m loc with
    | some u => some (loc, u)
    | none =>
      match mapGet m (loc ++ '-' :: loc) with
      | some u => some (loc ++ '-' :: loc, u)
      | none => selectLoop m rest

/-- Embedding of `SelectPreferredLocaleURL`.  The final `for ... range`
over the Go map returns an unspecified entry; the association-list model
returns the first one. -/
def SelectPreferredLocaleURL (hreflangMap : List (Str × Str)) (priority : List Str) :
    Str × Str :=
  if hreflangMap.isEmpty then ([], [])
  else
    match selectLoop hreflangMap priority with
    | some r => r
    | none =>
      match hreflangMap with
      | p :: _ => (p.1, p.2)
      | [] => ([], [])

end Locale

section Hreflang

mutual
/-- A node of the parsed HTML document (`golang.org/x/net/html`
collaborator): an element node with tag name, attributes and children,
or any non-element node (document, text, comment) with children.  The
child forest is the `FirstChild`/`NextSibling` chain. -/
inductive HNode where
  | elem (data : Str) (attrs : List (Str × Str)) (children : HForest)
  | other (children : HForest)

/-- A sibling chain of HTML nodes. -/
inductive HForest where
  | nil
  | cons (n : HNode) (rest : HForest)
end

/-- The attribute loop of `ExtractHreflang`: fold over `n.Attr`
assigning `rel`, `hreflang`, `href` (a repeated key keeps the last
occurrence, as the Go loop does). -/
def attrScan (attrs : List (Str × Str)) : Str × Str × Str :=
  attrs.foldl
    (fun acc kv =>
      if kv.1 = str "rel" then (kv.2, acc.2.1, acc.2.2)
      else if kv.1 = str "hreflang" then (acc.1, kv.2, acc.2.2)
      else if kv.1 = str "href" then (acc.1, acc.2.1, kv.2)
      else acc)
    ([], [], [])

/-- Go map assignment `m[k] = v` on the association-list model: update
the existing key in place, else append. -/
def mapSet (m : List (Str × Str)) (k v : Str) : List (Str × Str) :=
  if (m.find? fun p => p.1 == k).isSome then
    m.map fun p => if p.1 = k then (k, v) else p
  else m ++ [(k, v)]

/-- Does this element node qualify as a hreflang alternate link?  The Go
condition `rel == "alternate" && hreflang != "" && href != ""` on a
`link` element. -/
def hreflangEntry (data : Str) (attrs : List (Str × Str)) : Option (Str × Str) :=
  if data = str "link" then
    let a := attrScan attrs
    if a.1 = str "alternate" ∧ a.2.1 ≠ [] ∧ a.2.2 ≠ [] then
      some (lowerStr a.2.1, a.2.2)
    else none
  else none

mutual
/-- The recursive `extract` closure of `ExtractHreflang`: record the
node's link (if it qualifies), then descend into the children in
order. -/
def extractNode (acc : List (Str × Str)) : HNode → List (Str × Str)
  | .elem data attrs children =>
    let acc :=
      match hreflangEntry data attrs with
      | some kv => mapSet acc kv.1 kv.2
      | none => acc
    extractForest acc children
  | .other children => extractForest acc children

/-- `extract` over a sibling chain. -/
def extractForest (acc : List (Str × Str)) : HForest → List (Str × Str)
  | .nil => acc
  | .cons n rest => extractForest (extractNode acc n) rest
end

/-- Embedding of `ExtractHreflang`; `none` models a nil document. -/
def ExtractHreflang (doc : Option HNode) : List (Str × Str) :=
  match doc with
  | none => []
  | some d => extractNode [] d

mutual
/-- Modelled from the spec for claim C9: the qualifying
`(lowercased hreflang, raw href)` pairs of the tree in depth-first
traversal order. -/
def linksOfNode : HNode → List (Str × Str)
  | .elem data attrs children =>
    (match hreflangEntry data attrs with
     | some kv => [kv]
     | none => []) ++ linksOfForest children
  | .other children => linksOfForest children

/-- Depth-first qualifying links of a sibling chain. -/
def linksOfForest : HForest → List (Str × Str)
  | .nil => []
  | .cons n rest => linksOfNode n ++ linksOfForest rest
end

end Hreflang

section ClaimSpecs

/-- Modelled from the spec for claim C5: the claim's fully
case-insensitive reading of the path pattern, where the two-letter code
may be of either case (`[a-zA-Z]{2}` instead of the source's
`[a-z]{2}`). -/
def matchSegCI : List Char → Option (Nat × Nat)
  | '/' :: c1 :: c2 :: rest =>
    if alphaChar c1 && alphaChar c2 then
      match rest with
      | '-' :: r =>
        if regionFits r 4 then some (9, 7)
        else if regionFits r 3 then some (8, 6)
        else if regionFits r 2 then some (7, 5)
        else none
      | '/' :: _ => some (4, 2)
      | _ => none
    else none
  | _ => none

/-- Fuelled scanning loop of the case-insensitive reading. -/
def findAllFuelCI : Nat → List Char → Nat → List RegexMatch
  | _, [], _ => []
  | 0, _ :: _, _ => []
  | fuel + 1, c :: rest, pos =>
    match matchSegCI (c :: rest) with
    | some (mlen, clen) =>
      ⟨pos, pos + mlen, pos + 1, pos + 1 + clen⟩ ::
        findAllFuelCI fuel (rest.drop (mlen - 1)) (pos + mlen)
    | none => findAllFuelCI fuel rest (pos + 1)

/-- Modelled from the spec for claim C5: all non-overlapping leftmost
matches of the case-insensitive reading. -/
def findAllAuxCI (cs : List Char) (pos : Nat) : List RegexMatch :=
  findAllFuelCI cs.length cs pos

/-- Modelled from the spec for claim C5: path-segment extraction as the
claim states it, with a case-insensitive segment scan (registry
acceptance, stripping and collapsing as described). -/
def extractPathModeCI (path : Str) : Str × Str :=
  match extractLoop path (findAllAuxCI path 0) with
  | some r => r
  | none => ([], path)

/-- No two adjacent `/` characters (the "no special characters" side
condition of the round-trip claim: a canonical path with no doubled
separator). -/
def noDoubledSlash : List Char → Bool
  | [] => true
  | [_] => true
  | c :: d :: rest => if c = '/' ∧ d = '/' then false else noDoubledSlash (d :: rest)

/-- The string holds no `&`. -/
def noAmp (s : Str) : Bool := s.all (· ≠ '&')

/-- The string holds no `=`. -/
def noEq (s : Str) : Bool := s.all (· ≠ '=')

/-- A two-letter lowercase string. -/
def twoShape (L : Str) : Bool :=
  match L with
  | [a, b] => lowerAlpha a && lowerAlpha b
  | _ => false

/-- A `xx-yy` string: two lowercase letters, a dash, two letters. -/
def fiveShape (L : Str) : Bool :=
  match L with
  | [a, b, x, c, d] => lowerAlpha a && lowerAlpha b && (x = '-') && alphaChar c && alphaChar d
  | _ => false

/-- A well-formed hreflang document for the worked example of claim C9:
a head with two alternate links, `hreflang="EN"` and `hreflang="ja"`. -/
def exampleDoc : HNode :=
  .other (.cons
    (.elem (str "head") []
      (.cons (.elem (str "link")
          [(str "rel", str "alternate"), (str "hreflang", str "EN"),
           (str "href", str "https://x/en")] .nil)
      (.cons (.elem (str "link")
          [(str "rel", str "alternate"), (str "hreflang", str "ja"),
           (str "href", str "https://x/ja")] .nil)
      .nil)))
    .nil)

/-- A document repeating the same normalized locale, to exercise the
overwrite rule of claim C9. -/
def exampleDocDup : HNode :=
  .other (.cons
    (.elem (str "link")
      [(str "rel", str "alternate"), (str "hreflang", str "en"),
       (str "href", str "https://x/old")] .nil)
    (.cons (.elem (str "link")
      [(str "rel", str "alternate"), (str "hreflang", str "EN"),
       (str "href", str "https://x/new")] .nil)
    .nil))

end ClaimSpecs

theorem trimPre_of_hasPre (s pre : Str) (h : hasPre s pre = true) :
    trimPre s pre = s.drop pre.length := by
  simp [trimPre, h]

theorem hasSuf_append_slash (bp : Str) : hasSuf (bp ++ ['/']) ['/'] = true := by
  rw [hasSuf, List.isSuffixOf_iff_suffix]
  exact List.suffix_append bp ['/']

/-- C1 fails as stated: when the first `FetchPolicy` call fails to parse
the root URL, the fetched flag stays false, so the second call with the
same bad root URL is not a no-op returning no error — it retries and
returns the parse error again. -/
theorem fetchPolicy_retry_after_parse_error :
    (FetchRobotsTxt .rootParseFailure
        (FetchRobotsTxt .rootParseFailure (NewRobotsManager (str "bot") [])).1).2 =
      some FetchError.urlParseError := by decide

/-- C1 (amended): once a `FetchPolicy` call has set the fetched flag
(every outcome except a root-URL parse failure or request-construction
failure), each later call on the instance is a no-op returning no error,
leaves the cached state unchanged, and `IsAllowed` results are identical
before and after for every target URL; an unfetched-and-failed instance
only arises from those two early-error outcomes. -/
theorem fetchPolicy_idempotent_once_fetched (outcome : FetchOutcome) (r : RobotsManager)
    (h : r.fetched = true) :
    FetchRobotsTxt outcome r = (r, none) ∧
      (∀ target, IsAllowed (FetchRobotsTxt outcome r).1 target = IsAllowed r target) ∧
      (∀ s : RobotsManager, s.fetched = false → outcome ≠ .rootParseFailure →
        outcome ≠ .requestBuildFailure → (FetchRobotsTxt outcome s).1.fetched = true) := by
  refine ⟨by simp [FetchRobotsTxt, h], fun target => by simp [FetchRobotsTxt, h], ?_⟩
  intro s hs h1 h2
  cases outcome with
  | rootParseFailure => exact absurd rfl h1
  | requestBuildFailure => exact absurd rfl h2
  | transportFailure => simp [FetchRobotsTxt, hs]
  | httpResponse status body =>
    simp only [FetchRobotsTxt, hs, if_false, Bool.false_eq_true]
    by_cases hst : status ≠ 200
    · simp [hst]
    · cases body <;> simp [hst]

theorem fetchPolicy_idempotent_once_fetched_witness :
    FetchRobotsTxt .transportFailure
        (FetchRobotsTxt .transportFailure (NewRobotsManager (str "bot") [])).1 =
      ((FetchRobotsTxt .transportFailure (NewRobotsManager (str "bot") [])).1, none) :=
  (fetchPolicy_idempotent_once_fetched .transportFailure _ (by decide)).1

/-- C2: a transport error, a non-200 status, or an unparseable body make
`FetchPolicy` return no error, set the fetched flag, and store no
ruleset (the cached ruleset is untouched, so a fresh manager keeps
none), after which the gate allows every target. -/
theorem fetchPolicy_failOpen (outcome : FetchOutcome) (ua bp : Str)
    (h : FailureOutcome outcome) :
    (FetchRobotsTxt outcome (NewRobotsManager ua bp)).2 = none ∧
      (FetchRobotsTxt outcome (NewRobotsManager ua bp)).1.fetched = true ∧
      (FetchRobotsTxt outcome (NewRobotsManager ua bp)).1.robotsData = none ∧
      (∀ s : RobotsManager, (FetchRobotsTxt outcome s).1.robotsData = s.robotsData) ∧
      (∀ target, IsAllowed (FetchRobotsTxt outcome (NewRobotsManager ua bp)).1 target = true) := by
  have hstate : ∀ s : RobotsManager, (FetchRobotsTxt outcome s).1.robotsData = s.robotsData ∧
      (FetchRobotsTxt outcome s).2 = none ∧
      (s.fetched = false → (FetchRobotsTxt outcome s).1.fetched = true) := by
    intro s
    cases outcome with
    | transportFailure =>
      by_cases hf : s.fetched <;> simp [FetchRobotsTxt, hf]
    | httpResponse status body =>
      by_cases hf : s.fetched
      · simp [FetchRobotsTxt, hf]
      · rcases h with hst | hbody
        · simp [FetchRobotsTxt, hf, hst]
        · subst hbody
          by_cases hst : status ≠ 200 <;> simp [FetchRobotsTxt, hf, hst]
    | rootParseFailure => exact absurd h (by simp [FailureOutcome])
    | requestBuildFailure => exact absurd h (by simp [FailureOutcome])
  have hnew := hstate (NewRobotsManager ua bp)
  have hdata : (FetchRobotsTxt outcome (NewRobotsManager ua bp)).1.robotsData = none := by
    rw [hnew.1]; rfl
  refine ⟨hnew.2.1, hnew.2.2 rfl, hdata, fun s => (hstate s).1, fun target => ?_⟩
  simp [IsAllowed, hdata]

theorem fetchPolicy_failOpen_witness :
    (FetchRobotsTxt (.httpResponse 404 none) (NewRobotsManager (str "bot") [])).2 = none ∧
      (FetchRobotsTxt (.httpResponse 404 none) (NewRobotsManager (str "bot") [])).1.fetched = true ∧
      IsAllowed (FetchRobotsTxt (.httpResponse 404 none) (NewRobotsManager (str "bot") [])).1
        (some ⟨str "/docs", []⟩) = true :=
  ⟨(fetchPolicy_failOpen (.httpResponse 404 none) (str "bot") [] (Or.inl (by decide))).1,
   (fetchPolicy_failOpen (.httpResponse 404 none) (str "bot") [] (Or.inl (by decide))).2.1,
   (fetchPolicy_failOpen (.httpResponse 404 none) (str "bot") [] (Or.inl (by decide))).2.2.2.2
     (some ⟨str "/docs", []⟩)⟩

/-- C3: `IsAllowed` answers true for every target when the policy is
unfetched or no ruleset is stored, and answers true on an unparseable
target URL whatever the cached state is. -/
theorem isAllowed_failOpen (r : RobotsManager) (target : Option GoURL) :
    ((r.fetched = false ∨ r.robotsData = none) → IsAllowed r target = true) ∧
      IsAllowed r none = true := by
  constructor
  · rintro (h | h) <;> simp [IsAllowed, h]
  · rw [IsAllowed]
    split
    · rfl
    · rfl

theorem isAllowed_failOpen_witness :
    IsAllowed (NewRobotsManager (str "bot") []) (some ⟨str "??::bad", []⟩) = true :=
  (isAllowed_failOpen (NewRobotsManager (str "bot") []) (some ⟨str "??::bad", []⟩)).1
    (Or.inl (by decide))

/-- C4: with a stored ruleset and a parsed target, `IsAllowed` is the
rule-group evaluation (group of the configured user agent) of the
spec-described path: URL path plus `?` and the raw query when present,
rewritten by stripping a configured basePath prefix to a root-relative
path. -/
theorem isAllowed_ruleset_path (r : RobotsManager) (d : RobotsData) (u : GoURL)
    (hf : r.fetched = true) (hd : r.robotsData = some d) :
    IsAllowed r (some u) = (d.findGroup r.userAgent).test (specRewrittenPath r.basePath u) := by
  rw [IsAllowed, specRewrittenPath, specTestedPath]
  rw [if_neg (by simp [hf, hd])]
  simp only [hd]
  split
  all_goals
    split
    · rename_i hcond
      rw [trimPre_of_hasPre _ _ hcond.2]
    · rfl

theorem isAllowed_ruleset_path_witness :
    IsAllowed
        { robotsData := some ⟨fun _ => ⟨fun p => p == str "/docs?x=1"⟩⟩,
          userAgent := str "bot", fetched := true, basePath := str "/site/" }
        (some ⟨str "/site/docs", str "x=1"⟩) =
      (RobotsData.findGroup ⟨fun _ => ⟨fun p => p == str "/docs?x=1"⟩⟩ (str "bot")).test
        (specRewrittenPath (str "/site/")
          (⟨str "/site/docs", str "x=1"⟩ : GoURL)) :=
  isAllowed_ruleset_path
    { robotsData := some ⟨fun _ => ⟨fun p => p == str "/docs?x=1"⟩⟩,
      userAgent := str "bot", fetched := true, basePath := str "/site/" }
    ⟨fun _ => ⟨fun p => p == str "/docs?x=1"⟩⟩
    ⟨str "/site/docs", str "x=1"⟩ rfl rfl

/-- C10: the basePath stored by `NewRobotsManager` is empty or ends in
`/`; in particular `/site` is stored as `/site/`, which is not a prefix
of `/siteX/docs`, so `IsAllowed` leaves that path unstripped (the
installed test group sees the whole `/siteX/docs`). -/
theorem newRobotsManager_basePath_normalized (ua bp : Str) :
    ((NewRobotsManager ua bp).basePath = [] ∨
        hasSuf (NewRobotsManager ua bp).basePath ['/'] = true) ∧
      (NewRobotsManager (str "bot") (str "/site")).basePath = str "/site/" ∧
      hasPre (str "/siteX/docs") (NewRobotsManager (str "bot") (str "/site")).basePath = false ∧
      IsAllowed
          (FetchRobotsTxt (.httpResponse 200 (some ⟨fun _ => ⟨fun p => p == str "/siteX/docs"⟩⟩))
            (NewRobotsManager (str "bot") (str "/site"))).1
          (some ⟨str "/siteX/docs", []⟩) = true := by
  refine ⟨?_, by decide, by decide, by rfl⟩
  rw [NewRobotsManager]
  by_cases h1 : bp ≠ [] ∧ bp ≠ ['/'] ∧ hasSuf bp ['/'] = false
  · simp only [if_pos h1]
    by_cases h2 : bp ++ ['/'] = ['/']
    · simp [h2]
    · simp only [if_neg h2]
      exact Or.inr (hasSuf_append_slash bp)
  · simp only [if_neg h1]
    by_cases hbp : bp = []
    · simp [hbp]
    · by_cases hbp2 : bp = ['/']
      · simp [hbp2]
      · have hsuf : hasSuf bp ['/'] = true := by
          rcases Bool.eq_false_or_eq_true (hasSuf bp ['/']) with ht | hf
          · exact ht
          · exact absurd ⟨hbp, hbp2, hf⟩ h1
        rw [if_neg hbp2]
        exact Or.inr hsuf

theorem collapse_noop (l : List Char) (h : noDoubledSlash l = true) :
    collapse2Slash l = l := by
  induction l with
  | nil => rfl
  | cons c rest ih =>
    cases rest with
    | nil => rfl
    | cons d rest2 =>
      rw [noDoubledSlash] at h
      rw [collapse2Slash]
      split at h
      · exact absurd h (by simp)
      · rename_i hcd
        rw [if_neg hcd, ih h]

theorem extractLoop_known (path : Str) (ms : List RegexMatch) (r : Str × Str)
    (h : extractLoop path ms = some r) : knownLocale r.1 = true := by
  induction ms with
  | nil => exact absurd h (by simp [extractLoop])
  | cons m rest ih =>
    simp only [extractLoop] at h
    split at h
    · rename_i hknown
      cases h
      exact hknown
    · exact ih h

theorem findAllFuel_irrel (f1 : Nat) : ∀ (f2 : Nat) (cs : List Char) (pos : Nat),
    cs.length ≤ f1 → cs.length ≤ f2 → findAllFuel f1 cs pos = findAllFuel f2 cs pos := by
  induction f1 with
  | zero =>
    intro f2 cs pos h1 _
    have hnil : cs = [] := List.length_eq_zero.mp (Nat.le_zero.mp h1)
    subst hnil
    cases f2 <;> rfl
  | succ f ih =>
    intro f2 cs pos h1 h2
    cases cs with
    | nil => cases f2 <;> rfl
    | cons c rest =>
      cases f2 with
      | zero => exact absurd h2 (by simp)
      | succ f2 =>
        simp only [List.length_cons, Nat.add_le_add_iff_right] at h1 h2
        rw [findAllFuel, findAllFuel]
        cases hm : matchSeg (c :: rest) with
        | none =>
          exact ih f2 rest (pos + 1) h1 h2
        | some p =>
          obtain ⟨mlen, clen⟩ := p
          have hlen : (rest.drop (mlen - 1)).length ≤ rest.length := by
            simp only [List.length_drop]
            omega
          exact congrArg (List.cons _)
            (ih f2 (rest.drop (mlen - 1)) (pos + mlen) (le_trans hlen h1) (le_trans hlen h2))

theorem findAllAux_cons_match (c : Char) (rest : List Char) (pos mlen clen : Nat)
    (hm : matchSeg (c :: rest) = some (mlen, clen)) :
    findAllAux (c :: rest) pos =
      ⟨pos, pos + mlen, pos + 1, pos + 1 + clen⟩ ::
        findAllAux (rest.drop (mlen - 1)) (pos + mlen) := by
  rw [findAllAux, findAllAux, List.length_cons, findAllFuel, hm]
  exact congrArg (List.cons _)
    (findAllFuel_irrel rest.length _ _ _ (by simp only [List.length_drop]; omega) (le_refl _))

theorem registry_all_shapes :
    KnownLocales.all (fun L => (twoShape L || fiveShape L) && (lowerStr L == L)) = true := by
  decide

theorem twoShape_elim (L : Str) (h : twoShape L = true) :
    ∃ a b, L = [a, b] ∧ lowerAlpha a = true ∧ lowerAlpha b = true := by
  match L with
  | [] => exact absurd h (by simp [twoShape])
  | [a] => exact absurd h (by simp [twoShape])
  | [a, b] =>
    rw [twoShape, Bool.and_eq_true] at h
    exact ⟨a, b, rfl, h.1, h.2⟩
  | a :: b :: c :: rest => exact absurd h (by simp [twoShape])

theorem fiveShape_elim (L : Str) (h : fiveShape L = true) :
    ∃ a b c d, L = [a, b, '-', c, d] ∧ lowerAlpha a = true ∧ lowerAlpha b = true ∧
      alphaChar c = true ∧ alphaChar d = true := by
  match L with
  | [] => exact absurd h (by simp [fiveShape])
  | [a] => exact absurd h (by simp [fiveShape])
  | [a, b] => exact absurd h (by simp [fiveShape])
  | [a, b, x] => exact absurd h (by simp [fiveShape])
  | [a, b, x, c] => exact absurd h (by simp [fiveShape])
  | [a, b, x, c, d] =>
    rw [fiveShape] at h
    simp only [Bool.and_eq_true, decide_eq_true_eq] at h
    obtain ⟨⟨⟨⟨ha, hb⟩, hx⟩, hc⟩, hd⟩ := h
    subst hx
    exact ⟨a, b, c, d, rfl, ha, hb, hc, hd⟩
  | a :: b :: x :: c :: d :: e :: rest => exact absurd h (by simp [fiveShape])

theorem extractPathMode_twoShape (a b : Char) (t : Str)
    (ha : lowerAlpha a = true) (hb : lowerAlpha b = true)
    (hlow : lowerStr [a, b] = [a, b])
    (hk : knownLocale [a, b] = true)
    (hcol : collapse2Slash ('/' :: t) = '/' :: t) :
    extractPathMode ('/' :: a :: b :: '/' :: t) = ([a, b], '/' :: t) := by
  have hm : matchSeg ('/' :: a :: b :: '/' :: t) = some (4, 2) := by
    simp [matchSeg, ha, hb]
  have hfa : findAllAux ('/' :: a :: b :: '/' :: t) 0 =
      ⟨0, 4, 1, 3⟩ :: findAllAux t 4 := by
    rw [findAllAux_cons_match _ _ _ _ _ hm]
    rfl
  rw [extractPathMode, hfa]
  simp only [extractLoop]
  rw [show (('/' :: a :: b :: '/' :: t).drop 1).take (3 - 1) = [a, b] by simp]
  rw [hlow, if_pos hk]
  simp only [List.take_zero, List.nil_append]
  rw [show ('/' :: a :: b :: '/' :: t).drop 4 = t by simp]
  rw [hcol]
  simp

theorem extractPathMode_fiveShape (a b c d : Char) (t : Str)
    (ha : lowerAlpha a = true) (hb : lowerAlpha b = true)
    (hc : alphaChar c = true) (hd : alphaChar d = true)
    (hlow : lowerStr [a, b, '-', c, d] = [a, b, '-', c, d])
    (hk : knownLocale [a, b, '-', c, d] = true)
    (hcol : collapse2Slash ('/' :: t) = '/' :: t) :
    extractPathMode ('/' :: a :: b :: '-' :: c :: d :: '/' :: t) =
      ([a, b, '-', c, d], '/' :: t) := by
  have h4 : regionFits (c :: d :: '/' :: t) 4 = false := by
    simp [regionFits, (by decide : alphaChar '/' = false)]
  have h3 : regionFits (c :: d :: '/' :: t) 3 = false := by
    simp [regionFits, (by decide : alphaChar '/' = false)]
  have h2 : regionFits (c :: d :: '/' :: t) 2 = true := by
    simp [regionFits, hc, hd]
  have hm : matchSeg ('/' :: a :: b :: '-' :: c :: d :: '/' :: t) = some (7, 5) := by
    simp [matchSeg, ha, hb, h4, h3, h2]
  have hfa : findAllAux ('/' :: a :: b :: '-' :: c :: d :: '/' :: t) 0 =
      ⟨0, 7, 1, 6⟩ :: findAllAux t 7 := by
    rw [findAllAux_cons_match _ _ _ _ _ hm]
    rfl
  rw [extractPathMode, hfa]
  simp only [extractLoop]
  rw [show (('/' :: a :: b :: '-' :: c :: d :: '/' :: t).drop 1).take (6 - 1) =
      [a, b, '-', c, d] by simp]
  rw [hlow, if_pos hk]
  simp only [List.take_zero, List.nil_append]
  rw [show ('/' :: a :: b :: '-' :: c :: d :: '/' :: t).drop 7 = t by simp]
  rw [hcol]
  simp

theorem extract_roundTrip_path (L t : Str) (hL : L ∈ KnownLocales)
    (ht : noDoubledSlash ('/' :: t) = true) :
    extractPathMode ('/' :: (L ++ '/' :: t)) = (L, '/' :: t) := by
  have hcol := collapse_noop ('/' :: t) ht
  have hk : knownLocale L = true := List.elem_iff.mpr hL
  have hshape := List.all_eq_true.mp registry_all_shapes L hL
  rw [Bool.and_eq_true, Bool.or_eq_true] at hshape
  obtain ⟨h12, hloweq⟩ := hshape
  have hlow : lowerStr L = L := by simpa using hloweq
  rcases h12 with h2 | h5
  · obtain ⟨a, b, rfl, ha, hb⟩ := twoShape_elim L h2
    exact extractPathMode_twoShape a b t ha hb hlow hk hcol
  · obtain ⟨a, b, c, d, rfl, ha, hb, hc, hd⟩ := fiveShape_elim L h5
    exact extractPathMode_fiveShape a b c d t ha hb hc hd hlow hk hcol

/-- C5 fails as stated on case-insensitivity: the pattern requires the
two-letter code in lowercase (`[a-z]{2}`), so `/JA/docs/page` is not
detected even though its lowercased segment `ja` is in the registry —
while the claim's case-insensitive scan (the `CI` reading) would accept
it and return `("ja", "/docs/page")`. -/
theorem extractLocale_uppercase_not_detected :
    ExtractLocale (some ⟨str "/JA/docs/page", []⟩) none = (str "", str "/JA/docs/page") ∧
      extractPathModeCI (str "/JA/docs/page") = (str "ja", str "/docs/page") ∧
      ExtractLocale (some ⟨str "/JA/docs/page", []⟩) none ≠
        extractPathModeCI (str "/JA/docs/page") := by decide

/-- C5 (amended): in path-segment mode the scan matches the two-letter
code case-sensitively in lowercase (the region part case-insensitively),
accepting a candidate only if its lowercased form is in the fixed
registry; on acceptance the matched segment is stripped, doubled
separators collapsed and a root result normalized to `/`; otherwise the
locale is empty and the path unmodified.  Shown by the claim's worked
examples, a region-case example, and the general facts that an
empty-locale result keeps the path unmodified and a non-empty result is
always a registry member. -/
theorem extractLocale_pathMode_props (path : Str) :
    ExtractLocale (some ⟨str "/ja/docs/page", []⟩) none = (str "ja", str "/docs/page") ∧
      ExtractLocale (some ⟨str "/v2/docs/page", []⟩) none = (str "", str "/v2/docs/page") ∧
      ExtractLocale (some ⟨str "/ja-JP/docs", []⟩) none = (str "ja-jp", str "/docs") ∧
      ExtractLocale (some ⟨str "/ja/", []⟩) none = (str "ja", str "/") ∧
      ((extractPathMode path).1 = [] → (extractPathMode path).2 = path) ∧
      ((extractPathMode path).1 ≠ [] → knownLocale (extractPathMode path).1 = true) := by
  have hmain : ((extractPathMode path).1 = [] → (extractPathMode path).2 = path) ∧
      ((extractPathMode path).1 ≠ [] → knownLocale (extractPathMode path).1 = true) := by
    cases hcase : extractLoop path (findAllAux path 0) with
    | none =>
      have hp : extractPathMode path = ([], path) := by rw [extractPathMode, hcase]
      rw [hp]
      exact ⟨fun _ => rfl, fun hne => absurd rfl hne⟩
    | some r =>
      have hp : extractPathMode path = r := by rw [extractPathMode, hcase]
      have hk := extractLoop_known path _ r hcase
      rw [hp]
      exact ⟨fun h1 => absurd (h1 ▸ hk) (by decide), fun _ => hk⟩
  exact ⟨by decide, by decide, by decide, by decide, hmain.1, hmain.2⟩

theorem extractLocale_pathMode_props_witness :
    (extractPathMode (str "/v2/docs")).2 = str "/v2/docs" ∧
      knownLocale (extractPathMode (str "/ja/docs")).1 = true :=
  ⟨(extractLocale_pathMode_props (str "/v2/docs")).2.2.2.2.1 (by decide),
   (extractLocale_pathMode_props (str "/ja/docs")).2.2.2.2.2 (by decide)⟩

theorem splitAmpAux_noAmp (s : Str) : ∀ cur, noAmp s = true → splitAmpAux cur s = [cur.reverse ++ s] := by
  induction s with
  | nil =>
    intro cur _
    simp [splitAmpAux]
  | cons c rest ih =>
    intro cur h
    rw [noAmp, List.all_cons, Bool.and_eq_true] at h
    have hc : c ≠ '&' := by simpa using h.1
    rw [splitAmpAux, if_neg hc, ih (c :: cur) h.2]
    simp

theorem cutEq_append (p L : Str) (hp : noEq p = true) :
    cutEq (p ++ '=' :: L) = (p, L) := by
  induction p with
  | nil => simp [cutEq]
  | cons c rest ih =>
    rw [noEq, List.all_cons, Bool.and_eq_true] at hp
    have hc : c ≠ '=' := by simpa using hp.1
    rw [List.cons_append, cutEq, if_neg hc, ih hp.2]

theorem queryGet_single (p L : Str) (hpAmp : noAmp p = true) (hpEq : noEq p = true)
    (hLAmp : noAmp L = true) :
    queryGet (p ++ '=' :: L) p = L := by
  have hall : noAmp (p ++ '=' :: L) = true := by
    rw [noAmp, List.all_append, Bool.and_eq_true]
    refine ⟨hpAmp, ?_⟩
    rw [List.all_cons, Bool.and_eq_true]
    exact ⟨by decide, hLAmp⟩
  have hne : ¬(p ++ '=' :: L = []) := by simp
  rw [queryGet, queryPairs, splitAmpAux_noAmp _ [] hall]
  simp only [List.reverse_nil, List.nil_append]
  rw [List.filter_cons_of_pos (by simp), List.filter_nil, List.map_cons,
    List.map_nil, cutEq_append p L hpEq]
  simp [List.find?_cons]

/-- C6 fails as stated: the round trip is not valid for every locale —
a locale outside the `KnownLocales` registry (here the real ISO code
`sv`) survives `BuildLocaleURL` but is not detected by `ExtractLocale`,
which returns an empty locale and the unsplit path. -/
theorem roundTrip_unknown_locale_fails :
    BuildLocaleURL [] (str "sv") (str "/docs") none none = .inl (str "/sv/docs") ∧
      ExtractLocale (some ⟨str "/sv/docs", []⟩) none = (str "", str "/sv/docs") ∧
      ExtractLocale (some ⟨str "/sv/docs", []⟩) none ≠ (str "sv", str "/docs") := by
  decide

/-- C6 (amended): the round trip holds for every locale in the
`KnownLocales` registry.  Path mode: for registry locale `L` and
canonical path `'/' :: t` with no doubled separator, `BuildLocaleURL`
concatenates `base ++ "/" ++ L ++ canonical` and `ExtractLocale` on the
resulting path recovers `(L, canonical)` exactly.  Query mode: for a
non-empty parameter and locale free of query metacharacters, the URL
built by the query branch carries the parameter, and `ExtractLocale`
recovers the locale from its query string together with the unchanged
path. -/
theorem buildExtract_roundTrip :
    (∀ (base L t : Str), L ∈ KnownLocales → noDoubledSlash ('/' :: t) = true →
      BuildLocaleURL base L ('/' :: t) none none = .inl (base ++ '/' :: (L ++ '/' :: t)) ∧
        ExtractLocale (some ⟨'/' :: (L ++ '/' :: t), []⟩) none = (L, '/' :: t)) ∧
    (∀ (base C : Str) (u : GoURL) (p L : Str) (prio : List Str),
      p ≠ [] → L ≠ [] → noAmp p = true → noEq p = true → noAmp L = true →
      u.rawQuery = [] →
      BuildLocaleURL base L C (some ⟨prio, p⟩) (some u) = .inr (buildLocaleQueryURL u p L) ∧
        ExtractLocale (some (buildLocaleQueryURL u p L)) (some ⟨prio, p⟩) = (L, u.path)) := by
  constructor
  · intro base L t hL ht
    have hne : L ≠ [] := by
      intro hnil
      rw [hnil] at hL
      exact absurd (List.elem_iff.mpr hL) (by decide)
    constructor
    · simp [BuildLocaleURL, cfgParam, hne]
    · simp only [ExtractLocale, cfgParam]
      rw [if_neg (by simp)]
      exact extract_roundTrip_path L t hL ht
  · intro base C u p L prio hp hL hpAmp hpEq hLAmp hraw
    have hq : buildLocaleQueryURL u p L = ⟨u.path, p ++ '=' :: L⟩ := by
      rw [buildLocaleQueryURL, hraw]
      rfl
    constructor
    · simp [BuildLocaleURL, cfgParam, hp, hL]
    · rw [hq]
      simp only [ExtractLocale, cfgParam]
      rw [if_pos (by simpa using hp)]
      rw [queryGet_single p L hpAmp hpEq hLAmp]

theorem buildExtract_roundTrip_witness :
    ExtractLocale (some ⟨'/' :: (str "ja" ++ '/' :: str "docs"), []⟩) none =
        (str "ja", '/' :: str "docs") ∧
      ExtractLocale
          (some (buildLocaleQueryURL ⟨str "/docs", []⟩ (str "hl") (str "ja")))
          (some ⟨[], str "hl"⟩) = (str "ja", str "/docs") :=
  ⟨(buildExtract_roundTrip.1 [] (str "ja") (str "docs") (by decide) (by decide)).2,
   (buildExtract_roundTrip.2 [] (str "/docs") ⟨str "/docs", []⟩ (str "hl") (str "ja") []
      (by decide) (by decide) (by decide) (by decide) (by decide) rfl).2⟩

/-- C7: `SelectPreferredLocaleURL` on an empty map gives two empty
strings; on a non-empty map it walks the priority list, trying each
candidate directly and then in doubled `loc-loc` form, returning the
matched key with its URL on the first hit; the spec's worked example. -/
theorem selectPreferredLocaleURL_props (m : List (Str × Str)) (loc u : Str) (rest : List Str) :
    (∀ prio, SelectPreferredLocaleURL [] prio = ([], [])) ∧
      (m ≠ [] → mapGet m loc = some u →
        SelectPreferredLocaleURL m (loc :: rest) = (loc, u)) ∧
      (m ≠ [] → mapGet m loc = none → mapGet m (loc ++ '-' :: loc) = some u →
        SelectPreferredLocaleURL m (loc :: rest) = (loc ++ '-' :: loc, u)) ∧
      (m ≠ [] → mapGet m loc = none → mapGet m (loc ++ '-' :: loc) = none →
        SelectPreferredLocaleURL m (loc :: rest) = SelectPreferredLocaleURL m rest) ∧
      SelectPreferredLocaleURL [(str "ja", str "u1"), (str "en", str "u2")]
        [str "en", str "ja"] = (str "en", str "u2") := by
  refine ⟨fun prio => rfl, ?_, ?_, ?_, by decide⟩
  · intro hm h1
    have hemp : m.isEmpty = false := by simpa [List.isEmpty_iff] using hm
    simp [SelectPreferredLocaleURL, hemp, selectLoop, h1]
  · intro hm h1 h2
    have hemp : m.isEmpty = false := by simpa [List.isEmpty_iff] using hm
    simp [SelectPreferredLocaleURL, hemp, selectLoop, h1, h2]
  · intro hm h1 h2
    have hemp : m.isEmpty = false := by simpa [List.isEmpty_iff] using hm
    simp [SelectPreferredLocaleURL, hemp, selectLoop, h1, h2]

theorem selectPreferredLocaleURL_props_witness :
    SelectPreferredLocaleURL [(str "ja", str "u1")] [str "ja"] = (str "ja", str "u1") :=
  (selectPreferredLocaleURL_props [(str "ja", str "u1")] (str "ja") (str "u1") []).2.1
    (by decide) (by decide)

/-- C8: in query-parameter mode `ExtractLocale` returns the value of the
configured parameter (empty when absent) and the URL path unchanged as
the canonical path; the query string never enters the canonical path.
Shown in general against the query-lookup model and on the spec's
worked example plus the absent-parameter case. -/
theorem extractLocale_queryMode_props (u : GoURL) (cfg : Option LocaleConfig)
    (h : cfgParam cfg ≠ []) :
    ExtractLocale (some u) cfg = (queryGet u.rawQuery (cfgParam cfg), u.path) ∧
      ExtractLocale (some ⟨str "/docs", str "hl=ja"⟩) (some ⟨[], str "hl"⟩) =
        (str "ja", str "/docs") ∧
      ExtractLocale (some ⟨str "/docs", []⟩) (some ⟨[], str "hl"⟩) =
        (str "", str "/docs") := by
  refine ⟨?_, by decide, by decide⟩
  simp [ExtractLocale, h]

theorem extractLocale_queryMode_props_witness :
    ExtractLocale (some ⟨str "/docs", str "hl=ja"⟩) (some ⟨[], str "hl"⟩) =
      (queryGet (str "hl=ja") (cfgParam (some ⟨[], str "hl"⟩)), str "/docs") :=
  (extractLocale_queryMode_props ⟨str "/docs", str "hl=ja"⟩ (some ⟨[], str "hl"⟩)
    (by decide)).1

mutual
theorem extractNode_eq (acc : List (Str × Str)) (n : HNode) :
    extractNode acc n = (linksOfNode n).foldl (fun m kv => mapSet m kv.1 kv.2) acc := by
  cases n with
  | elem data attrs children =>
    rw [extractNode, linksOfNode, List.foldl_append]
    cases hentry : hreflangEntry data attrs with
    | some kv => exact extractForest_eq (mapSet acc kv.1 kv.2) children
    | none => exact extractForest_eq acc children
  | other children =>
    rw [extractNode, linksOfNode]
    exact extractForest_eq acc children

theorem extractForest_eq (acc : List (Str × Str)) (f : HForest) :
    extractForest acc f = (linksOfForest f).foldl (fun m kv => mapSet m kv.1 kv.2) acc := by
  cases f with
  | nil => rfl
  | cons n rest =>
    rw [extractForest, linksOfForest, List.foldl_append, ← extractNode_eq acc n]
    exact extractForest_eq (extractNode acc n) rest
end

/-- C9: `ExtractHreflang` of a nil document is the empty map and never
an error; on a document it records, in depth-first traversal order,
every `link` element with `rel="alternate"`, non-empty `hreflang` and
non-empty `href` as lowercased-hreflang ↦ raw href, a later occurrence
of the same normalized code overwriting an earlier one — shown by the
fold characterization and the worked two-link and duplicate-link
documents. -/
theorem extractHreflang_props (d : HNode) :
    ExtractHreflang none = [] ∧
      ExtractHreflang (some d) =
        (linksOfNode d).foldl (fun m kv => mapSet m kv.1 kv.2) [] ∧
      ExtractHreflang (some exampleDoc) =
        [(str "en", str "https://x/en"), (str "ja", str "https://x/ja")] ∧
      ExtractHreflang (some exampleDocDup) = [(str "en", str "https://x/new")] :=
  ⟨rfl, extractNode_eq [] d, by decide, by decide⟩

end Site2skill
